import Mathlib

/-!
Verification of the AudioEmotion real-time audio pipeline.

The definitions below are shallow embeddings of the JavaScript sources:
the SPSC ring buffer (RingBuffer.js), the audio utilities (utils/audio.js),
the EMA smoother and silence gate (utils/inference.js, workers/inference.js),
the softmax (utils/inference.js), the AudioWorklet streaming resampler
(audio-processor.js) and the inference worker's control loop
(workers/inference.js).  Sample values are modelled as exact rationals
(reals where the source uses transcendental functions); machine floats'
rounding is outside the model.
-/

namespace AudioEmotion

/-! ### Ring buffer (RingBuffer.js)

A `RingState` is the shared memory of the ring buffer: the capacity field,
the two cursors and the sample array.  `data` is the backing store; only
indices below `cap` are ever read or written.  The writer and reader
classes share this state through the SharedArrayBuffer; atomicity of the
cursor loads/stores is the concurrency mechanism and is not modelled —
each operation here is one atomic step of the SPSC protocol.
-/

structure RingState where
  cap : ℕ
  writePtr : ℕ
  readPtr : ℕ
  data : ℕ → ℚ

/-- Well-formedness: cursors are in range, capacity positive (the
constructor stores a positive capacity; both cursors are always reduced
modulo `cap`). -/
def RingState.Valid (s : RingState) : Prop :=
  0 < s.cap ∧ s.writePtr < s.cap ∧ s.readPtr < s.cap

/-- RingBufferWriter.availableRead / RingBufferReader.availableRead:
`writePtr >= readPtr ? writePtr - readPtr : capacity - readPtr + writePtr`. -/
def availableRead (s : RingState) : ℕ :=
  if s.readPtr ≤ s.writePtr then s.writePtr - s.readPtr
  else s.cap - s.readPtr + s.writePtr

/-- RingBufferWriter.availableWrite:
`readPtr <= writePtr ? capacity - writePtr + readPtr - 1 : readPtr - writePtr - 1`
(one slot is left empty to differentiate full from empty). -/
def availableWrite (s : RingState) : ℕ :=
  if s.readPtr ≤ s.writePtr then s.cap - s.writePtr + s.readPtr - 1
  else s.readPtr - s.writePtr - 1

/-- The write loop body of RingBufferWriter.write: store each sample at
`writeIndex`, then advance `writeIndex = (writeIndex + 1) % capacity`.
Returns the updated data array and the final write index. -/
def writeLoop (cap : ℕ) : (ℕ → ℚ) → ℕ → List ℚ → (ℕ → ℚ) × ℕ
  | d, idx, [] => (d, idx)
  | d, idx, x :: rest => writeLoop cap (Function.update d idx x) ((idx + 1) % cap) rest

/-- RingBufferWriter.write: writes `min samples.length availableWrite`
samples starting at the write pointer, then publishes the new write
pointer.  Returns the count written and the new state. -/
def RingState.write (s : RingState) (samples : List ℚ) : ℕ × RingState :=
  let toWrite := min samples.length (availableWrite s)
  if toWrite = 0 then (0, s)
  else
    let res := writeLoop s.cap s.data s.writePtr (samples.take toWrite)
    (toWrite, { s with data := res.1, writePtr := res.2 })

/-- The read loop body of RingBufferReader.read: collect `n` samples
starting at `idx`, advancing modulo `cap`.  Returns the samples in order
and the final read index. -/
def readLoop (cap : ℕ) (d : ℕ → ℚ) : ℕ → ℕ → List ℚ × ℕ
  | idx, 0 => ([], idx)
  | idx, n + 1 =>
    let r := readLoop cap d ((idx + 1) % cap) n
    (d idx :: r.1, r.2)

/-- RingBufferReader.read: reads `min destination.length availableRead`
samples from the read pointer, then publishes the new read pointer. -/
def RingState.read (s : RingState) (destLen : ℕ) : List ℚ × RingState :=
  let toRead := min destLen (availableRead s)
  if toRead = 0 then ([], s)
  else
    let res := readLoop s.cap s.data s.readPtr toRead
    (res.1, { s with readPtr := res.2 })

/-- RingBufferWriter.reset: stores 0 into both cursors. -/
def writerReset (s : RingState) : RingState :=
  { s with writePtr := 0, readPtr := 0 }

/-- RingBufferReader.reset: loads the write pointer and stores it into the
read pointer (the data between the cursors is discarded). -/
def readerReset (s : RingState) : RingState :=
  { s with readPtr := s.writePtr }

/-- Total number of samples offered across a list of write calls
(no reads in between), together with the final state: folds
RingBufferWriter.write over the chunks and sums the returned counts. -/
def pushAll (s : RingState) : List (List ℚ) → ℕ × RingState
  | [] => (0, s)
  | c :: rest =>
    let r1 := s.write c
    let r2 := pushAll r1.2 rest
    (r1.1 + r2.1, r2.2)

/-- Total length of a list of chunks. -/
def chunkTotal (chunks : List (List ℚ)) : ℕ :=
  (chunks.map List.length).sum

/-! ### Emotion vectors and the EMA smoother (utils/inference.js, workers/inference.js) -/

/-- The eight labels of EMOTION_LABELS (utils/emotions.js), in source order. -/
inductive EmotionLabel where
  | angry
  | disgust
  | fearful
  | happy
  | neutral
  | sad
  | surprised
  | calm
  deriving DecidableEq, Fintype

/-- An emotion probability map keyed by the fixed label set. -/
abbrev EmoVec := EmotionLabel → ℚ

/-- NEUTRAL_VECTOR: neutral ↦ 1, every other label ↦ 0. -/
def NEUTRAL_VECTOR : EmoVec :=
  fun l => if l = EmotionLabel.neutral then 1 else 0

/-- EMA_ALPHA = 0.2. -/
def EMA_ALPHA : ℚ := 1 / 5

/-- EmaSmoother.update.  The smoother state is `none` before the first
update and after reset (`this.state = null`).  With no prior state the
input is copied and returned unchanged; otherwise each label is blended
as `alpha * next + (1 - alpha) * prev`.  Returns the emitted vector and
the new state. -/
def emaUpdate (alpha : ℚ) (st : Option EmoVec) (values : EmoVec) : EmoVec × Option EmoVec :=
  match st with
  | none => (values, some values)
  | some prev =>
    let smoothed : EmoVec := fun l => alpha * values l + (1 - alpha) * prev l
    (smoothed, some smoothed)

/-- EmaSmoother.reset: `this.state = null`. -/
def emaReset (_st : Option EmoVec) : Option EmoVec := none

/-- VOICE_HOLD_MS = 800 (milliseconds). -/
def VOICE_HOLD_MS : ℤ := 800

/-- buildSilencePayload (workers/inference.js) = buildSilenceResult
(utils/inference.js): `holdActive` when `now - lastVoiced < VOICE_HOLD_MS`
and `lastVoiced > 0`; while holding, emit `getState() || NEUTRAL_VECTOR`
and leave the smoother untouched; otherwise emit
`probabilitySmoother.update(NEUTRAL_VECTOR)`.  Returns the emitted
emotions and the smoother state afterwards. -/
def buildSilencePayload (now lastVoiced : ℤ) (st : Option EmoVec) : EmoVec × Option EmoVec :=
  if now - lastVoiced < VOICE_HOLD_MS ∧ 0 < lastVoiced then
    (st.getD NEUTRAL_VECTOR, st)
  else
    emaUpdate EMA_ALPHA st NEUTRAL_VECTOR

/-! ### Softmax (utils/inference.js and workers/inference.js, identical) -/

/-- `Math.max(...logits)`: a fold of binary max over the list.  The
source never applies it to an empty list (softmax is called on the model's
8 logits); the `[]` value is irrelevant padding. -/
noncomputable def maxLogit (logits : List ℝ) : ℝ :=
  match logits with
  | [] => 0
  | h :: t => t.foldl max h

/-- `logits.map((x) => Math.exp(x - maxLogit))`. -/
noncomputable def expScores (logits : List ℝ) : List ℝ :=
  logits.map fun x => Real.exp (x - maxLogit logits)

/-- `expScores.reduce((a, b) => a + b, 0)`: a left fold from 0. -/
noncomputable def sumExp (logits : List ℝ) : ℝ :=
  (expScores logits).foldl (· + ·) 0

/-- softmax: `expScores.map((x) => x / sumExp)`. -/
noncomputable def softmax (logits : List ℝ) : List ℝ :=
  (expScores logits).map fun x => x / sumExp logits

/-! ### Resampling (utils/audio.js resampleAudio and the AudioWorklet's
AudioProcessor.resample).  Sample values and rates are exact rationals, so
the floating-point phase accumulator `phase += ratio` is exactly
`i * ratio` and `isFinite` checks are vacuous. -/

/-- `Math.round`: halves round up (toward +∞). -/
def jsRound (x : ℚ) : ℤ := ⌊x + 1 / 2⌋

/-- One linear-interpolation tap shared by both resamplers:
`floor`/`ceil` source indices (ceil clamped to the last sample) blended by
the fractional part.  Out-of-range reads return 0; the sources only
evaluate in-range positions. -/
def interpAt (buf : List ℚ) (srcIndex : ℚ) : ℚ :=
  let f : ℤ := ⌊srcIndex⌋
  let c : ℤ := min (f + 1) ((buf.length : ℤ) - 1)
  let t : ℚ := srcIndex - f
  buf.getD f.toNat 0 * (1 - t) + buf.getD c.toNat 0 * t

/-- The output loop of both resamplers: emit `n` taps starting at `phase`,
advancing the phase by `ratio` per output sample. -/
def resampleLoop (buf : List ℚ) (ratio : ℚ) : ℕ → ℚ → List ℚ
  | 0, _ => []
  | n + 1, phase => interpAt buf phase :: resampleLoop buf ratio n (phase + ratio)

/-- resampleAudio (utils/audio.js): identity on empty input or equal
rates; otherwise `outputLength = max(1, round(length / ratio))` taps at
phases `0, ratio, 2 * ratio, ...`. -/
def resampleAudio (input : List ℚ) (inputSampleRate outputSampleRate : ℚ) : List ℚ :=
  if input.length = 0 ∨ inputSampleRate = outputSampleRate then input
  else
    let ratio := inputSampleRate / outputSampleRate
    let outputLength := (max 1 (jsRound ((input.length : ℚ) / ratio))).toNat
    resampleLoop input ratio outputLength 0

/-- AudioProcessor.resample (audio-processor.js): the carry-over buffer
`resampleBuffer` accumulates the incoming block; if fewer samples than
`ratio` are held, no output is produced; otherwise
`outputSamples = floor(length / ratio)` taps are emitted at phases
`0, ratio, ...` and `floor(outputSamples * ratio)` input samples are
consumed from the front.  Returns the output block and the new
carry-over buffer. -/
def streamResample (ratio : ℚ) (carry : List ℚ) (inputSamples : List ℚ) : List ℚ × List ℚ :=
  let acc := carry ++ inputSamples
  if (acc.length : ℚ) < ratio then ([], acc)
  else
    let outputSamples := (⌊(acc.length : ℚ) / ratio⌋).toNat
    let output := resampleLoop acc ratio outputSamples 0
    let consumed := (⌊(outputSamples : ℚ) * ratio⌋).toNat
    (output, acc.drop consumed)

/-- Feed a sequence of callback blocks through AudioProcessor.resample,
starting from an empty carry-over buffer; returns the concatenated
outputs and the final carry-over buffer. -/
def streamResampleAll (ratio : ℚ) (blocks : List (List ℚ)) : List ℚ × List ℚ :=
  blocks.foldl
    (fun acc b =>
      let r := streamResample ratio acc.2 b
      (acc.1 ++ r.1, r.2))
    ([], [])

/-! ### The inference worker's control loop (workers/inference.js)

The worker is single threaded: the `inferenceLoop` body runs only while
no `await session.run` is pending, and `onmessage` handlers interleave at
`await` points.  The model below makes each atomic section a step:
draining the ring buffer into `sampleBuffer`, the silence branch of a
hop, the voiced branch up to the `await` (which records `lastVoiced` and
marks an inference in flight), the completion of the in-flight call
(success posts the smoothed prediction and advances the buffer; a caught
error posts nothing), and the start/stop/reset message handlers. -/

/-- INFERENCE_WINDOW_SAMPLES = 2376. -/
def INFERENCE_WINDOW_SAMPLES : ℕ := 2376

/-- HOP_SIZE_SAMPLES = min(windowSamples - 1, max(1, floor(16000 * 0.5))). -/
def HOP_SIZE_SAMPLES : ℕ := min (INFERENCE_WINDOW_SAMPLES - 1) (max 1 8000)

/-- Mean of squared samples (calculateRMS before the square root; 0 on an
empty list).  calculateRMS returns `sqrt(meanSquare)`, and the worker's
noise gate `rms < NOISE_GATE_THRESHOLD` (threshold 0.01) is embedded
below as `meanSquare < (1/100)^2 = 1/10000`, an exact equivalence because
both sides of the source comparison are nonnegative. -/
def meanSquare (samples : List ℚ) : ℚ :=
  if samples.length = 0 then 0
  else (samples.map fun x => x * x).sum / samples.length

/-- `sampleBuffer.slice(-INFERENCE_WINDOW_SAMPLES)`: the most recent
window of samples. -/
def windowOf (buf : List ℚ) : List ℚ :=
  buf.drop (buf.length - INFERENCE_WINDOW_SAMPLES)

/-- One posted prediction message. -/
structure Prediction where
  emotions : EmoVec
  rawEmotions : EmoVec
  isSilence : Bool

/-- The worker's mutable state: `isRunning`, the smoother state,
`lastVoicedTimestamp`, whether a `session.run` call is pending, the
rolling `sampleBuffer`, and the posted predictions (`emittedAfterStop`
records those posted while `isRunning` was already false). -/
structure WState where
  isRunning : Bool
  smootherState : Option EmoVec
  lastVoiced : ℤ
  inFlight : Bool
  sampleBuffer : List ℚ
  emitted : List Prediction
  emittedAfterStop : List Prediction

/-- Atomic sections of the worker: the start/stop/reset message handlers,
a buffer drain, the two hop branches, and the completion of the pending
inference (`some raw` = success with raw probabilities, `none` = the
invocation threw and was caught). -/
inductive WEvent where
  | msgStart
  | msgStop
  | msgReset
  | recvSamples (xs : List ℚ)
  | hopSilence (now : ℤ)
  | hopVoiced (now : ℤ)
  | inferDone (raw : Option EmoVec)

/-- One atomic section of workers/inference.js.  Loop sections
(`recvSamples`, `hopSilence`, `hopVoiced`) require `isRunning` and no
pending inference; `hopVoiced` stores `lastVoicedTimestamp` before the
`await`.  On successful completion the result is posted and
`sampleBuffer` advances by `min(HOP_SIZE_SAMPLES, length)`; on failure
(`runInference` returned null) nothing is posted and the buffer is left
as it was.  The message handlers are unguarded: `stop` clears
`isRunning`, the smoother and the voiced timestamp; `start` sets
`isRunning` and also resets both. -/
def stepWorker (s : WState) : WEvent → WState
  | WEvent.msgStart =>
    { s with isRunning := true, smootherState := none, lastVoiced := 0 }
  | WEvent.msgStop =>
    { s with isRunning := false, smootherState := none, lastVoiced := 0 }
  | WEvent.msgReset =>
    { s with smootherState := none, lastVoiced := 0 }
  | WEvent.recvSamples xs =>
    if s.isRunning = true ∧ s.inFlight = false then
      let b := s.sampleBuffer ++ xs
      { s with sampleBuffer :=
          if 2 * INFERENCE_WINDOW_SAMPLES < b.length then
            b.drop (b.length - 2 * INFERENCE_WINDOW_SAMPLES)
          else b }
    else s
  | WEvent.hopSilence now =>
    if s.isRunning = true ∧ s.inFlight = false ∧
        INFERENCE_WINDOW_SAMPLES ≤ s.sampleBuffer.length ∧
        meanSquare (windowOf s.sampleBuffer) < 1 / 10000 then
      let r := buildSilencePayload now s.lastVoiced s.smootherState
      { s with smootherState := r.2,
               emitted := s.emitted ++ [⟨r.1, r.1, true⟩],
               sampleBuffer :=
                 s.sampleBuffer.drop (min HOP_SIZE_SAMPLES s.sampleBuffer.length) }
    else s
  | WEvent.hopVoiced now =>
    if s.isRunning = true ∧ s.inFlight = false ∧
        INFERENCE_WINDOW_SAMPLES ≤ s.sampleBuffer.length ∧
        ¬ meanSquare (windowOf s.sampleBuffer) < 1 / 10000 then
      { s with lastVoiced := now, inFlight := true }
    else s
  | WEvent.inferDone raw =>
    if s.inFlight = true then
      match raw with
      | none => { s with inFlight := false }
      | some r =>
        let u := emaUpdate EMA_ALPHA s.smootherState r
        let p : Prediction := ⟨u.1, r, false⟩
        { s with inFlight := false,
                 smootherState := u.2,
                 emitted := s.emitted ++ [p],
                 emittedAfterStop :=
                   s.emittedAfterStop ++ if s.isRunning = true then [] else [p],
                 sampleBuffer :=
                   s.sampleBuffer.drop (min HOP_SIZE_SAMPLES s.sampleBuffer.length) }
    else s

/-- Fold a sequence of atomic sections. -/
def runEvents (s : WState) (evts : List WEvent) : WState :=
  evts.foldl stepWorker s

/-- Worker state after `init` (model and buffer attached, loop not
running, nothing buffered or posted). -/
def initWState : WState :=
  { isRunning := false, smootherState := none, lastVoiced := 0, inFlight := false,
    sampleBuffer := [], emitted := [], emittedAfterStop := [] }

/-! ### Uninitialized-buffer guards (audio-processor.js writeToBuffer,
workers/inference.js readFromBuffer / getAvailableSamples) -/

/-- The AudioWorklet processor's buffer-facing state: the
`this.isInitialized` flag and the attached control/data views (`none`
before `init`). -/
structure WorkletState where
  isInit : Bool
  ring : Option RingState

/-- AudioProcessor.writeToBuffer: returns 0 immediately when not
initialized or when the views are missing; otherwise delegates to the
ring-buffer write. -/
def writeToBuffer (p : WorkletState) (samples : List ℚ) : ℕ × WorkletState :=
  match p.isInit, p.ring with
  | true, some rs =>
    let r := rs.write samples
    (r.1, { p with ring := some r.2 })
  | _, _ => (0, p)

/-- The worker's view of the shared buffer (`controlBuffer`/`dataBuffer`
are null before initBuffer runs). -/
structure WorkerViews where
  views : Option RingState

/-- readFromBuffer (workers/inference.js): returns 0 samples when the
views are missing; otherwise the ring-buffer read. -/
def readFromBuffer (w : WorkerViews) (destLen : ℕ) : List ℚ × WorkerViews :=
  match w.views with
  | none => ([], w)
  | some rs =>
    let r := rs.read destLen
    (r.1, { w with views := some r.2 })

/-- getAvailableSamples (workers/inference.js): 0 when the control view
is missing. -/
def getAvailableSamples (w : WorkerViews) : ℕ :=
  match w.views with
  | none => 0
  | some rs => availableRead rs

/-! ## Theorems -/

/-! ### Ring buffer arithmetic -/

/-- A value below twice the modulus reduces by a single conditional
subtraction. -/
theorem mod_two_cases {a c : ℕ} (_hc : 0 < c) (h : a < 2 * c) :
    a % c = if a < c then a else a - c := by
  split_ifs with h1
  · exact Nat.mod_eq_of_lt h1
  · have h2 : c ≤ a := le_of_not_lt h1
    rw [Nat.mod_eq_sub_mod h2, Nat.mod_eq_of_lt (by omega)]

/-- Advancing an in-range index by a non-multiple of the capacity moves
it. -/
theorem add_mod_ne_of_lt {cap idx m : ℕ} (h1 : idx < cap) (h2 : m % cap ≠ 0) :
    (idx + m) % cap ≠ idx := by
  intro h
  apply h2
  have hm : idx + m ≡ idx + 0 [MOD cap] := by
    unfold Nat.ModEq
    simpa [Nat.mod_eq_of_lt h1] using h
  have h3 := Nat.ModEq.add_left_cancel' idx hm
  simpa [Nat.ModEq] using h3

/-- The write loop leaves the write index advanced by the number of
samples, modulo the capacity. -/
theorem writeLoop_idx (cap : ℕ) (hc : 0 < cap) :
    ∀ (xs : List ℚ) (d : ℕ → ℚ) (idx : ℕ), idx < cap →
      (writeLoop cap d idx xs).2 = (idx + xs.length) % cap := by
  intro xs
  induction xs with
  | nil =>
    intro d idx h
    simp [writeLoop, Nat.mod_eq_of_lt h]
  | cons x rest ih =>
    intro d idx h
    have h1 : (idx + 1) % cap < cap := Nat.mod_lt _ hc
    rw [writeLoop, ih _ _ h1, List.length_cons, Nat.mod_add_mod]
    congr 1
    omega

/-- The write loop stores sample `i` at slot `(idx + i) % cap` and leaves
every other slot untouched (no aliasing while at most `cap` samples are
written). -/
theorem writeLoop_data (cap : ℕ) (hc : 0 < cap) :
    ∀ (xs : List ℚ) (d : ℕ → ℚ) (idx : ℕ), idx < cap → xs.length ≤ cap →
      (∀ i (hi : i < xs.length),
        (writeLoop cap d idx xs).1 ((idx + i) % cap) = xs.get ⟨i, hi⟩) ∧
      (∀ j, (∀ i, i < xs.length → (idx + i) % cap ≠ j) →
        (writeLoop cap d idx xs).1 j = d j) := by
  intro xs
  induction xs with
  | nil =>
    intro d idx h hlen
    refine ⟨fun i hi => absurd hi (by simp), fun j _ => by simp [writeLoop]⟩
  | cons x rest ih =>
    intro d idx h hlen
    have h1 : (idx + 1) % cap < cap := Nat.mod_lt _ hc
    have hlen1 : rest.length ≤ cap := by
      simp only [List.length_cons] at hlen
      omega
    obtain ⟨iha, ihb⟩ := ih (Function.update d idx x) ((idx + 1) % cap) h1 hlen1
    have hshift : ∀ i : ℕ, ((idx + 1) % cap + i) % cap = (idx + (1 + i)) % cap := by
      intro i
      rw [Nat.mod_add_mod]
      congr 1
      omega
    constructor
    · intro i hi
      match i with
      | 0 =>
        have huntouched : ∀ i', i' < rest.length → ((idx + 1) % cap + i') % cap ≠ idx := by
          intro i' hi'
          rw [hshift i']
          apply add_mod_ne_of_lt h
          have hlt : 1 + i' < cap := by
            simp only [List.length_cons] at hlen
            omega
          rw [Nat.mod_eq_of_lt hlt]
          omega
        rw [writeLoop]
        have hpos : (idx + 0) % cap = idx := by
          rw [Nat.add_zero, Nat.mod_eq_of_lt h]
        rw [hpos, ihb idx huntouched, Function.update_same]
        rfl
      | Nat.succ k =>
        rw [writeLoop]
        have hk : k < rest.length := by
          simp only [List.length_cons] at hi
          omega
        have hpos : (idx + (k + 1)) % cap = ((idx + 1) % cap + k) % cap := by
          rw [hshift k]
          congr 1
          omega
        rw [hpos, iha k hk]
        rfl
    · intro j hj
      rw [writeLoop]
      have hj0 : idx ≠ j := by
        have := hj 0 (by simp)
        rwa [Nat.add_zero, Nat.mod_eq_of_lt h] at this
      rw [ihb j ?_, Function.update_noteq (Ne.symm hj0)]
      intro i' hi'
      rw [hshift i']
      apply hj (1 + i')
      simp only [List.length_cons]
      omega

/-- The read loop advances the read index by the count and returns the
slots in order. -/
theorem readLoop_spec (cap : ℕ) (hc : 0 < cap) (d : ℕ → ℚ) :
    ∀ (n : ℕ) (idx : ℕ), idx < cap →
      (readLoop cap d idx n).2 = (idx + n) % cap ∧
      (readLoop cap d idx n).1 = (List.range n).map (fun i => d ((idx + i) % cap)) := by
  intro n
  induction n with
  | zero =>
    intro idx h
    simp [readLoop, Nat.mod_eq_of_lt h]
  | succ n ih =>
    intro idx h
    have h1 : (idx + 1) % cap < cap := Nat.mod_lt _ hc
    obtain ⟨ihidx, ihlist⟩ := ih ((idx + 1) % cap) h1
    constructor
    · rw [readLoop]
      show (readLoop cap d ((idx + 1) % cap) n).2 = (idx + (n + 1)) % cap
      rw [ihidx, Nat.mod_add_mod]
      congr 1
      omega
    · rw [readLoop]
      show d idx :: (readLoop cap d ((idx + 1) % cap) n).1 =
        (List.range (n + 1)).map (fun i => d ((idx + i) % cap))
      rw [ihlist, List.range_succ_eq_map]
      simp only [List.map_cons, List.map_map, Nat.add_zero, Nat.mod_eq_of_lt h]
      congr 1
      have hfun : (fun i => d (((idx + 1) % cap + i) % cap)) =
          ((fun i => d ((idx + i) % cap)) ∘ Nat.succ) := by
        funext i
        simp only [Function.comp_apply]
        rw [Nat.mod_add_mod]
        congr 2
        omega
      rw [hfun]

/-- The two availability counts always partition the `cap - 1` usable
slots. -/
theorem availableRead_add_availableWrite {s : RingState} (h : s.Valid) :
    availableRead s + availableWrite s = s.cap - 1 := by
  obtain ⟨h1, h2, h3⟩ := h
  unfold availableRead availableWrite
  split_ifs <;> omega

/-- Advancing the write pointer by `k ≤ availableWrite` grows
`availableRead` by exactly `k`. -/
theorem advance_write_availableRead {s s' : RingState} {k : ℕ} (h : s.Valid)
    (hcap : s'.cap = s.cap) (hr : s'.readPtr = s.readPtr)
    (hw : s'.writePtr = (s.writePtr + k) % s.cap)
    (hk : k ≤ availableWrite s) :
    availableRead s' = availableRead s + k := by
  obtain ⟨h1, h2, h3⟩ := h
  unfold availableRead availableWrite at *
  rw [hcap, hr, hw]
  have h2c : s.writePtr + k < 2 * s.cap := by
    split_ifs at hk <;> omega
  rw [mod_two_cases h1 h2c]
  split_ifs at * <;> omega

/-- Advancing the read pointer by `k ≤ availableRead` shrinks
`availableRead` by exactly `k`. -/
theorem advance_read_availableRead {s s' : RingState} {k : ℕ} (h : s.Valid)
    (hcap : s'.cap = s.cap) (hw : s'.writePtr = s.writePtr)
    (hr : s'.readPtr = (s.readPtr + k) % s.cap)
    (hk : k ≤ availableRead s) :
    availableRead s' = availableRead s - k := by
  obtain ⟨h1, h2, h3⟩ := h
  unfold availableRead at *
  rw [hcap, hw, hr]
  have h2c : s.readPtr + k < 2 * s.cap := by
    split_ifs at hk <;> omega
  rw [mod_two_cases h1 h2c]
  split_ifs at * <;> omega

/-- Unfolding of a nonempty write that fits in the free space. -/
theorem write_eq (s : RingState) (samples : List ℚ)
    (hk : samples.length ≤ availableWrite s) (h0 : samples.length ≠ 0) :
    s.write samples =
      (samples.length,
        { s with data := (writeLoop s.cap s.data s.writePtr samples).1,
                 writePtr := (writeLoop s.cap s.data s.writePtr samples).2 }) := by
  unfold RingState.write
  have hmin : min samples.length (availableWrite s) = samples.length := min_eq_left hk
  simp only [hmin, if_neg h0, List.take_length]

/-- The empty write is a no-op returning 0. -/
theorem write_nil (s : RingState) : s.write [] = (0, s) := by
  unfold RingState.write
  simp

/-- Unfolding of a nonempty read that stays within the available data. -/
theorem read_eq (s : RingState) (destLen : ℕ)
    (hk : destLen ≤ availableRead s) (h0 : destLen ≠ 0) :
    s.read destLen =
      ((readLoop s.cap s.data s.readPtr destLen).1,
        { s with readPtr := (readLoop s.cap s.data s.readPtr destLen).2 }) := by
  unfold RingState.read
  have hmin : min destLen (availableRead s) = destLen := min_eq_left hk
  simp only [hmin, if_neg h0]

/-- A zero-length read is a no-op returning no samples. -/
theorem read_zero (s : RingState) : s.read 0 = ([], s) := by
  unfold RingState.read
  simp

/-! ### C1: FIFO accounting -/

/-- C1 counterexample: with one sample already pending (value 5 at slot
0, writePtr 1, readPtr 0, capacity 4), a write of k = 1 sample (7) with
k ≤ availableWrite is followed by a read of k samples that returns the
older pending sample [5], not the written [7]: the claim's clause that
the read returns "those k samples" fails for a non-empty prior state. -/
theorem ringBuffer_fifo_counterexample :
    1 ≤ availableWrite ⟨4, 1, 0, fun j => if j = 0 then 5 else 0⟩ ∧
    ((RingState.write ⟨4, 1, 0, fun j => if j = 0 then 5 else 0⟩ [7]).2.read 1).1 ≠ [7] := by
  constructor
  · decide
  · have h5 : ((RingState.write ⟨4, 1, 0, fun j => if j = 0 then 5 else 0⟩ [7]).2.read 1).1
        = [5] := by decide
    rw [h5]
    decide

/-- C1 (amended): for every valid buffer state, a write of
k = `samples.length` ≤ availableWrite samples writes all of them and
increases availableRead by exactly k; a subsequent read of k samples
restores availableRead to its prior value, and returns exactly the
written samples in write order provided the buffer held no unread data
before the write (otherwise the FIFO read returns older samples first —
see the counterexample). -/
theorem ringBuffer_fifo_accounting (s : RingState) (h : s.Valid) (samples : List ℚ)
    (hk : samples.length ≤ availableWrite s) :
    (s.write samples).1 = samples.length ∧
    availableRead (s.write samples).2 = availableRead s + samples.length ∧
    availableRead ((s.write samples).2.read samples.length).2 = availableRead s ∧
    (availableRead s = 0 →
      ((s.write samples).2.read samples.length).1 = samples) := by
  obtain ⟨h1, h2, h3⟩ := h
  by_cases h0 : samples.length = 0
  · have hnil : samples = [] := List.length_eq_zero.mp h0
    subst hnil
    rw [write_nil]
    simp [read_zero]
  · -- the written count is k and the state advances
    have hweq := write_eq s samples hk h0
    have hwidx : (writeLoop s.cap s.data s.writePtr samples).2 =
        (s.writePtr + samples.length) % s.cap :=
      writeLoop_idx s.cap h1 samples s.data s.writePtr h2
    have hlencap : samples.length ≤ s.cap := by
      have := availableRead_add_availableWrite (s := s) ⟨h1, h2, h3⟩
      omega
    have havailW : availableRead (s.write samples).2 = availableRead s + samples.length := by
      apply advance_write_availableRead (s := s) (k := samples.length) ⟨h1, h2, h3⟩
      · rw [hweq]
      · rw [hweq]
      · rw [hweq]
        exact hwidx
      · exact hk
    refine ⟨by rw [hweq], havailW, ?_, ?_⟩
    · -- availableRead is drained back by the read of k samples
      have hvalid1 : (s.write samples).2.Valid := by
        rw [hweq]
        exact ⟨h1, by simpa [hwidx] using Nat.mod_lt _ h1, h3⟩
      have hkle : samples.length ≤ availableRead (s.write samples).2 := by omega
      have hreq := read_eq (s.write samples).2 samples.length hkle h0
      have hridx : (readLoop (s.write samples).2.cap (s.write samples).2.data
          (s.write samples).2.readPtr samples.length).2 =
          ((s.write samples).2.readPtr + samples.length) % (s.write samples).2.cap := by
        have hb : (s.write samples).2.readPtr < (s.write samples).2.cap := hvalid1.2.2
        exact (readLoop_spec _ hvalid1.1 _ samples.length _ hb).1
      have hdrain : availableRead ((s.write samples).2.read samples.length).2 =
          availableRead (s.write samples).2 - samples.length := by
        apply advance_read_availableRead (s := (s.write samples).2) (k := samples.length) hvalid1
        · rw [hreq]
        · rw [hreq]
        · rw [hreq]
          exact hridx
        · exact hkle
      omega
    · -- content when the buffer was empty before the write
      intro hempty
      have hwr : s.writePtr = s.readPtr := by
        unfold availableRead at hempty
        split_ifs at hempty <;> omega
      have hkle : samples.length ≤ availableRead (s.write samples).2 := by omega
      have hreq := read_eq (s.write samples).2 samples.length hkle h0
      rw [hreq]
      have hrl := (readLoop_spec (s.write samples).2.cap
        (by rw [hweq]; exact h1) (s.write samples).2.data samples.length
        (s.write samples).2.readPtr (by rw [hweq]; exact h3)).2
      rw [hrl]
      have hdata := (writeLoop_data s.cap h1 samples s.data s.writePtr h2 hlencap).1
      apply List.ext_get
      · simp
      · intro n hn1 hn2
        have hn : n < samples.length := by simpa using hn2
        rw [List.get_map]
        have harg : ((s.write samples).2.readPtr + (List.range samples.length).get
            ⟨n, by simpa using hn⟩) % (s.write samples).2.cap =
            (s.writePtr + n) % s.cap := by
          rw [hweq]
          simp [List.get_range, hwr]
        rw [harg]
        have hd : (s.write samples).2.data ((s.writePtr + n) % s.cap) =
            samples.get ⟨n, hn⟩ := by
          rw [hweq]
          exact hdata n hn
        rw [hd]

/-- C1 witness: a concrete empty buffer of capacity 4; writing [3, 4]
and reading 2 samples returns [3, 4]. -/
theorem ringBuffer_fifo_accounting_witness :
    RingState.Valid ⟨4, 0, 0, fun _ => 0⟩ ∧
    ((RingState.write ⟨4, 0, 0, fun _ => 0⟩ [3, 4]).2.read ([3, 4] : List ℚ).length).1
      = [3, 4] :=
  ⟨⟨by decide, by decide, by decide⟩,
    (ringBuffer_fifo_accounting ⟨4, 0, 0, fun _ => 0⟩ ⟨by decide, by decide, by decide⟩
      [3, 4] (by decide)).2.2.2 (by decide)⟩

/-! ### C2: one-slot reservation -/

/-- Unfolding of a write that stores a nonzero number of samples. -/
theorem write_unfold (s : RingState) (c : List ℚ)
    (h0 : min c.length (availableWrite s) ≠ 0) :
    s.write c =
      (min c.length (availableWrite s),
        { s with
            data := (writeLoop s.cap s.data s.writePtr
              (c.take (min c.length (availableWrite s)))).1,
            writePtr := (writeLoop s.cap s.data s.writePtr
              (c.take (min c.length (availableWrite s)))).2 }) := by
  unfold RingState.write
  simp only [if_neg h0]

/-- A write into a buffer that has never been read (readPtr 0, no
wrap-around yet): the count written is clipped to the free space and the
write pointer advances without wrapping. -/
theorem write_writeOnly (s : RingState) (c : List ℚ) (h1 : 0 < s.cap)
    (h2 : s.writePtr < s.cap) (h3 : s.readPtr = 0) :
    (s.write c).1 = min c.length (s.cap - 1 - s.writePtr) ∧
    (s.write c).2.cap = s.cap ∧
    (s.write c).2.readPtr = 0 ∧
    (s.write c).2.writePtr = s.writePtr + min c.length (s.cap - 1 - s.writePtr) := by
  have havw : availableWrite s = s.cap - 1 - s.writePtr := by
    unfold availableWrite
    rw [if_pos (show s.readPtr ≤ s.writePtr by omega)]
    omega
  by_cases hk : min c.length (availableWrite s) = 0
  · have hz : s.write c = (0, s) := by
      unfold RingState.write
      simp [hk]
    rw [hz]
    dsimp only
    rw [havw] at hk
    exact ⟨by omega, rfl, h3, by omega⟩
  · have hu := write_unfold s c hk
    have hlen : (c.take (min c.length (availableWrite s))).length =
        min c.length (availableWrite s) := by
      rw [List.length_take]
      omega
    have hidx := writeLoop_idx s.cap h1 (c.take (min c.length (availableWrite s)))
      s.data s.writePtr h2
    rw [hlen] at hidx
    have hnowrap : s.writePtr + min c.length (availableWrite s) < s.cap := by
      rw [havw]
      omega
    rw [Nat.mod_eq_of_lt hnowrap] at hidx
    rw [hu]
    dsimp only
    rw [havw] at hidx ⊢
    exact ⟨rfl, rfl, h3, hidx⟩

/-- Folding writes with no intervening reads from a fresh-cursor state:
the write pointer saturates at `cap - 1` and the total count written is
the distance travelled. -/
theorem pushAll_writeOnly (chunks : List (List ℚ)) :
    ∀ s : RingState, 0 < s.cap → s.writePtr < s.cap → s.readPtr = 0 →
      (pushAll s chunks).2.cap = s.cap ∧
      (pushAll s chunks).2.readPtr = 0 ∧
      (pushAll s chunks).2.writePtr = min (s.writePtr + chunkTotal chunks) (s.cap - 1) ∧
      (pushAll s chunks).1 + s.writePtr = min (s.writePtr + chunkTotal chunks) (s.cap - 1) := by
  induction chunks with
  | nil =>
    intro s h1 h2 h3
    have h0 : chunkTotal [] = 0 := by
      unfold chunkTotal
      simp
    unfold pushAll
    rw [h0]
    dsimp only
    exact ⟨rfl, h3, by omega, by omega⟩
  | cons c rest ih =>
    intro s h1 h2 h3
    obtain ⟨hw1, hw2, hw3, hw4⟩ := write_writeOnly s c h1 h2 h3
    have hlt : (s.write c).2.writePtr < (s.write c).2.cap := by
      rw [hw2, hw4]
      omega
    obtain ⟨ih1, ih2, ih3, ih4⟩ := ih (s.write c).2 (by rw [hw2]; exact h1) hlt hw3
    have htot : chunkTotal (c :: rest) = c.length + chunkTotal rest := by
      unfold chunkTotal
      simp
    unfold pushAll
    dsimp only
    rw [hw2] at ih1 ih3 ih4
    refine ⟨ih1, ih2, ?_, ?_⟩
    · rw [ih3, hw4, htot]
      omega
    · rw [htot, hw1]
      rw [hw4] at ih4
      omega

/-- C2: for every valid buffer state availableWrite is at most
`capacity - 1` (the reserved slot is never reported free), and pushing
any chunk sequence totalling at least `capacity - 1` samples into a
fresh buffer with no intervening reads leaves availableRead saturated at
`capacity - 1`, with exactly `capacity - 1` samples accepted, so the
dropped count is `total pushed - (capacity - 1)`. -/
theorem ringBuffer_one_slot_reserved :
    (∀ s : RingState, s.Valid → availableWrite s ≤ s.cap - 1) ∧
    (∀ (cap : ℕ) (chunks : List (List ℚ)), 0 < cap → cap - 1 ≤ chunkTotal chunks →
      availableRead (pushAll ⟨cap, 0, 0, fun _ => 0⟩ chunks).2 = cap - 1 ∧
      (pushAll ⟨cap, 0, 0, fun _ => 0⟩ chunks).1 = cap - 1 ∧
      chunkTotal chunks - (pushAll ⟨cap, 0, 0, fun _ => 0⟩ chunks).1 =
        chunkTotal chunks - (cap - 1)) := by
  constructor
  · intro s hs
    obtain ⟨h1, h2, h3⟩ := hs
    unfold availableWrite
    split_ifs <;> omega
  · intro cap chunks h1 h2
    obtain ⟨hp1, hp2, hp3, hp4⟩ :=
      pushAll_writeOnly chunks ⟨cap, 0, 0, fun _ => 0⟩ h1 h1 rfl
    dsimp only at hp1 hp3 hp4
    have hwfinal : (pushAll ⟨cap, 0, 0, fun _ => 0⟩ chunks).2.writePtr = cap - 1 := by
      rw [hp3]
      omega
    refine ⟨?_, by omega, by omega⟩
    unfold availableRead
    rw [hp2, hwfinal]
    rw [if_pos (by omega)]
    omega

/-- C2 witness: capacity 4; pushing [[1, 2], [3, 4], [5]] (5 samples)
with no reads accepts 3 and leaves availableRead = 3 = capacity - 1. -/
theorem ringBuffer_one_slot_reserved_witness :
    availableWrite ⟨4, 1, 2, fun _ => (0 : ℚ)⟩ ≤ 3 ∧
    availableRead (pushAll ⟨4, 0, 0, fun _ => 0⟩ [[1, 2], [3, 4], [5]]).2 = 3 :=
  ⟨ringBuffer_one_slot_reserved.1 ⟨4, 1, 2, fun _ => (0 : ℚ)⟩ ⟨by decide, by decide, by decide⟩,
    (ringBuffer_one_slot_reserved.2 4 [[1, 2], [3, 4], [5]] (by decide) (by decide)).1⟩

/-! ### C9: reset postconditions -/

/-- C9 counterexample: from writePtr 5 / readPtr 2, the consumer-side
reset (RingBufferReader.reset) sets the read cursor to the current write
cursor, which is 5, not zero — the claim that both reset operations zero
both cursors fails. -/
theorem reset_zero_counterexample :
    (readerReset ⟨8, 5, 2, fun _ => 0⟩).readPtr ≠ 0 := by
  decide

/-- C9 (amended): the producer-side reset (RingBufferWriter.reset) zeroes
both cursors; the consumer-side reset (RingBufferReader.reset) sets the
read cursor to the current write cursor and leaves the write cursor
unchanged.  After either operation availableRead = 0 and
availableWrite = capacity - 1. -/
theorem reset_postcondition (s : RingState) (h : s.Valid) :
    (writerReset s).writePtr = 0 ∧ (writerReset s).readPtr = 0 ∧
    availableRead (writerReset s) = 0 ∧ availableWrite (writerReset s) = s.cap - 1 ∧
    (readerReset s).readPtr = s.writePtr ∧ (readerReset s).writePtr = s.writePtr ∧
    availableRead (readerReset s) = 0 ∧ availableWrite (readerReset s) = s.cap - 1 := by
  obtain ⟨h1, h2, h3⟩ := h
  unfold writerReset readerReset availableRead availableWrite
  dsimp only
  refine ⟨rfl, rfl, ?_, ?_, rfl, rfl, ?_, ?_⟩ <;> (split_ifs <;> omega)

/-- C9 witness: both resets leave a drained buffer on a concrete state. -/
theorem reset_postcondition_witness :
    availableRead (writerReset ⟨8, 5, 2, fun _ => 0⟩) = 0 ∧
    availableRead (readerReset ⟨8, 5, 2, fun _ => 0⟩) = 0 :=
  ⟨(reset_postcondition ⟨8, 5, 2, fun _ => 0⟩ ⟨by decide, by decide, by decide⟩).2.2.1,
   (reset_postcondition ⟨8, 5, 2, fun _ => 0⟩
      ⟨by decide, by decide, by decide⟩).2.2.2.2.2.2.1⟩

/-! ### C10: uninitialized-buffer operations are benign no-ops -/

/-- C10: with no views attached (or the worklet not initialized), the
worklet's writeToBuffer returns 0 and changes nothing, and the worker's
readFromBuffer and getAvailableSamples return empty results and change
nothing.  All three are total functions: no exception paths exist in the
model. -/
theorem uninitialized_buffer_noops (p : WorkletState) (samples : List ℚ)
    (w : WorkerViews) (destLen : ℕ) :
    (p.ring = none → writeToBuffer p samples = (0, p)) ∧
    (p.isInit = false → writeToBuffer p samples = (0, p)) ∧
    (w.views = none →
      readFromBuffer w destLen = ([], w) ∧ getAvailableSamples w = 0) := by
  obtain ⟨b, r⟩ := p
  obtain ⟨v⟩ := w
  refine ⟨?_, ?_, ?_⟩
  · intro h
    dsimp only at h
    subst h
    cases b <;> rfl
  · intro h
    dsimp only at h
    subst h
    rfl
  · intro h
    dsimp only at h
    subst h
    exact ⟨rfl, rfl⟩

/-- C10 witness: the concrete pre-init states. -/
theorem uninitialized_buffer_noops_witness :
    writeToBuffer ⟨false, none⟩ [1, 2] = (0, ⟨false, none⟩) ∧
    (readFromBuffer ⟨none⟩ 3 = ([], ⟨none⟩) ∧ getAvailableSamples ⟨none⟩ = 0) :=
  ⟨(uninitialized_buffer_noops ⟨false, none⟩ [1, 2] ⟨none⟩ 3).1 rfl,
   (uninitialized_buffer_noops ⟨false, none⟩ [1, 2] ⟨none⟩ 3).2.2 rfl⟩

/-! ### C6: EMA smoother -/

/-- C6: with prior state, EmaSmoother.update returns
`alpha * raw + (1 - alpha) * prev` per label (and stores it); with no
prior state — first ever update, or the first update after reset — it
returns the input unchanged and stores a copy.  The configured default
is EMA_ALPHA = 0.2. -/
theorem ema_smoother_update (alpha : ℚ) (prev v : EmoVec) (st : Option EmoVec) :
    EMA_ALPHA = 1 / 5 ∧
    (emaUpdate alpha (some prev) v).1 = (fun l => alpha * v l + (1 - alpha) * prev l) ∧
    (emaUpdate alpha (some prev) v).2 =
      some (fun l => alpha * v l + (1 - alpha) * prev l) ∧
    (emaUpdate alpha none v).1 = v ∧
    (emaUpdate alpha none v).2 = some v ∧
    (emaUpdate alpha (emaReset st) v).1 = v :=
  ⟨rfl, rfl, rfl, rfl, rfl, rfl⟩

/-! ### C5: silence gate hold-then-decay -/

/-- The hold branch of buildSilencePayload. -/
theorem buildSilencePayload_hold (now lastVoiced : ℤ) (st : Option EmoVec)
    (h : now - lastVoiced < VOICE_HOLD_MS ∧ 0 < lastVoiced) :
    buildSilencePayload now lastVoiced st = (st.getD NEUTRAL_VECTOR, st) := by
  unfold buildSilencePayload
  rw [if_pos h]

/-- The decay branch of buildSilencePayload. -/
theorem buildSilencePayload_decay (now lastVoiced : ℤ) (st : Option EmoVec)
    (h : ¬ (now - lastVoiced < VOICE_HOLD_MS ∧ 0 < lastVoiced)) :
    buildSilencePayload now lastVoiced st = emaUpdate EMA_ALPHA st NEUTRAL_VECTOR := by
  unfold buildSilencePayload
  rw [if_neg h]

/-- Blending toward the neutral vector scales each label's distance to
neutral by `1 - EMA_ALPHA`. -/
theorem decay_dist (prev : EmoVec) (l : EmotionLabel) :
    |(emaUpdate EMA_ALPHA (some prev) NEUTRAL_VECTOR).1 l - NEUTRAL_VECTOR l| =
      (1 - EMA_ALPHA) * |prev l - NEUTRAL_VECTOR l| := by
  show |EMA_ALPHA * NEUTRAL_VECTOR l + (1 - EMA_ALPHA) * prev l - NEUTRAL_VECTOR l| = _
  have heq : EMA_ALPHA * NEUTRAL_VECTOR l + (1 - EMA_ALPHA) * prev l - NEUTRAL_VECTOR l =
      (1 - EMA_ALPHA) * (prev l - NEUTRAL_VECTOR l) := by
    ring
  rw [heq, abs_mul,
    abs_of_nonneg (show (0 : ℚ) ≤ 1 - EMA_ALPHA by norm_num [EMA_ALPHA])]

/-- C5: on a silence hop, when a voiced timestamp exists
(`lastVoiced > 0`) and `now - lastVoiced < VOICE_HOLD_MS`, the emitted
vector is the held smoother state (unchanged), so two consecutive such
silence hops emit identical output; otherwise the smoothed vector is
blended toward neutral-1/others-0 by the EMA formula, which scales every
label's distance to neutral by `1 - EMA_ALPHA` and strictly decreases the
total distance whenever the previous state is not already neutral. -/
theorem silence_gate_hold_then_decay (now now2 lastVoiced : ℤ) (st : Option EmoVec)
    (prev : EmoVec) :
    (0 < lastVoiced → now - lastVoiced < VOICE_HOLD_MS →
      (buildSilencePayload now lastVoiced st).1 = st.getD NEUTRAL_VECTOR ∧
      (buildSilencePayload now lastVoiced st).2 = st ∧
      (now2 - lastVoiced < VOICE_HOLD_MS →
        (buildSilencePayload now2 lastVoiced
            (buildSilencePayload now lastVoiced st).2).1 =
          (buildSilencePayload now lastVoiced st).1)) ∧
    (¬ (now - lastVoiced < VOICE_HOLD_MS ∧ 0 < lastVoiced) →
      (buildSilencePayload now lastVoiced (some prev)).1 =
        (fun l => EMA_ALPHA * NEUTRAL_VECTOR l + (1 - EMA_ALPHA) * prev l) ∧
      (∀ l, |(buildSilencePayload now lastVoiced (some prev)).1 l - NEUTRAL_VECTOR l| =
        (1 - EMA_ALPHA) * |prev l - NEUTRAL_VECTOR l|) ∧
      (prev ≠ NEUTRAL_VECTOR →
        Finset.univ.sum
            (fun l => |(buildSilencePayload now lastVoiced (some prev)).1 l -
              NEUTRAL_VECTOR l|) <
          Finset.univ.sum (fun l => |prev l - NEUTRAL_VECTOR l|))) := by
  constructor
  · intro h1 h2
    rw [buildSilencePayload_hold now lastVoiced st ⟨h2, h1⟩]
    refine ⟨rfl, rfl, ?_⟩
    intro h3
    rw [buildSilencePayload_hold now2 lastVoiced st ⟨h3, h1⟩]
  · intro h
    rw [buildSilencePayload_decay now lastVoiced (some prev) h]
    refine ⟨rfl, decay_dist prev, ?_⟩
    intro hne
    have hpos : 0 < Finset.univ.sum (fun l => |prev l - NEUTRAL_VECTOR l|) := by
      have hex : ∃ l : EmotionLabel, prev l ≠ NEUTRAL_VECTOR l := by
        by_contra hall
        push_neg at hall
        exact hne (funext hall)
      obtain ⟨l0, hl0⟩ := hex
      apply Finset.sum_pos'
      · intro i _
        exact abs_nonneg _
      · exact ⟨l0, Finset.mem_univ l0, abs_pos.mpr (sub_ne_zero.mpr hl0)⟩
    have hrw : Finset.univ.sum
        (fun l => |(emaUpdate EMA_ALPHA (some prev) NEUTRAL_VECTOR).1 l - NEUTRAL_VECTOR l|) =
        (1 - EMA_ALPHA) * Finset.univ.sum (fun l => |prev l - NEUTRAL_VECTOR l|) := by
      rw [Finset.mul_sum]
      exact Finset.sum_congr rfl (fun l _ => decay_dist prev l)
    rw [hrw]
    have hlt : (1 - EMA_ALPHA) * Finset.univ.sum (fun l => |prev l - NEUTRAL_VECTOR l|) <
        1 * Finset.univ.sum (fun l => |prev l - NEUTRAL_VECTOR l|) := by
      apply mul_lt_mul_of_pos_right _ hpos
      norm_num [EMA_ALPHA]
    simpa using hlt

/-- C5 witness: a hold hop at timestamp 100 with lastVoiced 50 emits the
held state; a decay hop with no voiced timestamp blends toward neutral. -/
theorem silence_gate_hold_then_decay_witness :
    (buildSilencePayload 100 50 (some NEUTRAL_VECTOR)).1 =
      (some NEUTRAL_VECTOR).getD NEUTRAL_VECTOR ∧
    (buildSilencePayload 100 0 (some NEUTRAL_VECTOR)).1 =
      (fun l => EMA_ALPHA * NEUTRAL_VECTOR l + (1 - EMA_ALPHA) * NEUTRAL_VECTOR l) :=
  ⟨((silence_gate_hold_then_decay 100 200 50 (some NEUTRAL_VECTOR) NEUTRAL_VECTOR).1
      (by decide) (by decide)).1,
   ((silence_gate_hold_then_decay 100 200 0 (some NEUTRAL_VECTOR) NEUTRAL_VECTOR).2
      (by decide)).1⟩

/-! ### C7: softmax -/

/-- A left fold of addition accumulates the list sum. -/
theorem foldl_add_eq_sum (l : List ℝ) : ∀ a : ℝ, l.foldl (· + ·) a = a + l.sum := by
  induction l with
  | nil => intro a; simp
  | cons x t ih =>
    intro a
    rw [List.foldl_cons, ih, List.sum_cons]
    ring

/-- The reduce-from-zero in the source equals the list sum. -/
theorem sumExp_eq_sum (logits : List ℝ) : sumExp logits = (expScores logits).sum := by
  unfold sumExp
  rw [foldl_add_eq_sum]
  ring

/-- Every exponentiated score is positive. -/
theorem expScores_pos (logits : List ℝ) : ∀ e ∈ expScores logits, 0 < e := by
  intro e he
  unfold expScores at he
  obtain ⟨y, _, rfl⟩ := List.mem_map.mp he
  exact Real.exp_pos _

/-- The denominator of softmax is positive on nonempty input. -/
theorem sumExp_pos (logits : List ℝ) (h : logits ≠ []) : 0 < sumExp logits := by
  rw [sumExp_eq_sum]
  exact List.sum_pos (expScores logits) (expScores_pos logits)
    (by unfold expScores; simpa using h)

/-- Dividing a list elementwise divides its sum. -/
theorem sum_map_div (l : List ℝ) (c : ℝ) : (l.map (fun x => x / c)).sum = l.sum / c := by
  induction l with
  | nil => simp
  | cons x t ih => simp [ih, add_div]

/-- softmax sums to 1 on nonempty input. -/
theorem softmax_sum (logits : List ℝ) (h : logits ≠ []) : (softmax logits).sum = 1 := by
  unfold softmax
  rw [sum_map_div, ← sumExp_eq_sum, div_self (ne_of_gt (sumExp_pos logits h))]

/-- Each softmax output lies in [0, 1]. -/
theorem softmax_mem_bounds (logits : List ℝ) (h : logits ≠ []) :
    ∀ p ∈ softmax logits, 0 ≤ p ∧ p ≤ 1 := by
  intro p hp
  unfold softmax at hp
  obtain ⟨e, he, rfl⟩ := List.mem_map.mp hp
  have hpos : 0 < e := expScores_pos logits e he
  have hS := sumExp_pos logits h
  refine ⟨le_of_lt (div_pos hpos hS), ?_⟩
  rw [div_le_one hS, sumExp_eq_sum]
  exact List.single_le_sum (fun x hx => le_of_lt (expScores_pos logits x hx)) e he

/-- Adding a constant to every element shifts a max fold by that
constant. -/
theorem foldl_max_add (t : List ℝ) : ∀ a c : ℝ,
    (t.map (fun v => v + c)).foldl max (a + c) = t.foldl max a + c := by
  induction t with
  | nil => intro a c; simp
  | cons x xs ih =>
    intro a c
    simp only [List.map_cons, List.foldl_cons]
    rw [max_add_add_right, ih]

/-- The running maximum is shift-equivariant on nonempty input. -/
theorem maxLogit_shift (logits : List ℝ) (c : ℝ) (h : logits ≠ []) :
    maxLogit (logits.map (fun v => v + c)) = maxLogit logits + c := by
  match logits with
  | [] => exact absurd rfl h
  | x :: t =>
    unfold maxLogit
    simp only [List.map_cons]
    exact foldl_max_add t x c

/-- softmax is invariant under adding a constant to every logit. -/
theorem softmax_shift (logits : List ℝ) (c : ℝ) :
    softmax (logits.map (fun v => v + c)) = softmax logits := by
  match logits with
  | [] => rfl
  | x :: t =>
    have hne : (x :: t : List ℝ) ≠ [] := by simp
    have hexp : expScores ((x :: t).map (fun v => v + c)) = expScores (x :: t) := by
      unfold expScores
      rw [maxLogit_shift _ c hne, List.map_map]
      have hfun : ((fun y => Real.exp (y - (maxLogit (x :: t) + c))) ∘ (fun v => v + c)) =
          (fun y => Real.exp (y - maxLogit (x :: t))) := by
        funext v
        simp only [Function.comp_apply]
        congr 1
        ring
      rw [hfun]
    unfold softmax sumExp
    rw [hexp]

/-- C7: on nonempty logits, softmax computes
`exp(x_i - max(x)) / sum_j exp(x_j - max(x))` per entry, its outputs lie
in [0, 1] and sum to 1, and it is shift-invariant under adding a scalar
to every component. -/
theorem softmax_spec (logits : List ℝ) (c : ℝ) (h : logits ≠ []) :
    softmax logits =
      logits.map (fun x => Real.exp (x - maxLogit logits) / sumExp logits) ∧
    (∀ p ∈ softmax logits, 0 ≤ p ∧ p ≤ 1) ∧
    (softmax logits).sum = 1 ∧
    softmax (logits.map (fun v => v + c)) = softmax logits := by
  refine ⟨?_, softmax_mem_bounds logits h, softmax_sum logits h, softmax_shift logits c⟩
  unfold softmax expScores
  rw [List.map_map]
  rfl

/-- C7 witness: the singleton logit list. -/
theorem softmax_spec_witness :
    ([(0 : ℝ)] ≠ []) ∧ (softmax [(0 : ℝ)]).sum = 1 :=
  ⟨by simp, (softmax_spec [(0 : ℝ)] 1 (by simp)).2.2.1⟩

/-! ### C8: streaming vs batch resampling -/

/-- At an integer phase the interpolation tap reads the sample directly
(the fractional part is zero, so the ceil term contributes nothing). -/
theorem interpAt_nat (buf : List ℚ) (k : ℕ) :
    interpAt buf (k : ℚ) = buf.getD k 0 := by
  simp only [interpAt]
  rw [Int.floor_natCast]
  simp

/-- The tap loop at integer ratio `n` starting at integer phase `k`
reads every `n`-th sample. -/
theorem resampleLoop_nat (buf : List ℚ) (n : ℕ) :
    ∀ m k : ℕ, resampleLoop buf (n : ℚ) m (k : ℚ) =
      (List.range m).map (fun i => buf.getD (k + i * n) 0) := by
  intro m
  induction m with
  | zero =>
    intro k
    simp [resampleLoop]
  | succ m ih =>
    intro k
    have hcast : (k : ℚ) + (n : ℚ) = ((k + n : ℕ) : ℚ) := by push_cast; ring
    rw [resampleLoop, hcast, ih (k + n), interpAt_nat, List.range_succ_eq_map]
    simp only [List.map_cons, List.map_map]
    congr 1
    · simp
    · have hfun : (fun i => buf.getD (k + n + i * n) 0) =
          ((fun i => buf.getD (k + i * n) 0) ∘ Nat.succ) := by
        funext i
        simp only [Function.comp_apply, Nat.succ_eq_add_one]
        congr 1
        ring
      rw [hfun]

/-- AudioProcessor.resample at integer ratio: emit every `n`-th sample
of the accumulated buffer and keep the `length mod n` tail as the new
carry (one uniform description of both the short-buffer early return and
the main path). -/
theorem streamResample_nat (n : ℕ) (_hn : 1 ≤ n) (carry b : List ℚ) :
    streamResample (n : ℚ) carry b =
      ((List.range ((carry ++ b).length / n)).map
          (fun i => (carry ++ b).getD (i * n) 0),
        (carry ++ b).drop ((carry ++ b).length / n * n)) := by
  simp only [streamResample]
  by_cases hlt : (((carry ++ b).length : ℕ) : ℚ) < (n : ℚ)
  · rw [if_pos hlt]
    have hlen : (carry ++ b).length < n := by exact_mod_cast hlt
    rw [Nat.div_eq_of_lt hlen]
    simp
  · rw [if_neg hlt]
    have hfloor : ⌊((carry ++ b).length : ℚ) / (n : ℚ)⌋ =
        ((carry ++ b).length / n : ℕ) :=
      Rat.floor_natCast_div_natCast (carry ++ b).length n
    rw [hfloor, Int.toNat_natCast]
    have hcons : (((carry ++ b).length / n : ℕ) : ℚ) * (n : ℚ) =
        (((carry ++ b).length / n * n : ℕ) : ℚ) := by
      push_cast
      ring
    rw [hcons, Int.floor_natCast, Int.toNat_natCast]
    rw [show (0 : ℚ) = ((0 : ℕ) : ℚ) by norm_num, resampleLoop_nat]
    simp

/-- Folding AudioProcessor.resample at integer ratio over callback
blocks from a short carry: the concatenated output is the decimation of
the whole stream seen so far, and the carry is the undecimated tail. -/
theorem streamFold_inv (n : ℕ) (hn : 1 ≤ n) :
    ∀ (blocks : List (List ℚ)) (out carry : List ℚ), carry.length < n →
      blocks.foldl
        (fun acc b =>
          let r := streamResample (n : ℚ) acc.2 b
          (acc.1 ++ r.1, r.2)) (out, carry) =
      (out ++ (List.range ((carry ++ blocks.flatten).length / n)).map
          (fun i => (carry ++ blocks.flatten).getD (i * n) 0),
        (carry ++ blocks.flatten).drop ((carry ++ blocks.flatten).length / n * n)) := by
  intro blocks
  induction blocks with
  | nil =>
    intro out carry hc
    simp only [List.foldl_nil, List.flatten_nil, List.append_nil]
    rw [Nat.div_eq_of_lt hc]
    simp
  | cons b rest ih =>
    intro out carry hc
    rw [List.foldl_cons]
    dsimp only
    rw [streamResample_nat n hn carry b]
    dsimp only
    have hC₁ : ((carry ++ b).drop ((carry ++ b).length / n * n)).length < n := by
      rw [List.length_drop]
      have hdm := Nat.div_add_mod' (carry ++ b).length n
      have hml : (carry ++ b).length % n < n := Nat.mod_lt _ (by omega)
      omega
    rw [ih (out ++ (List.range ((carry ++ b).length / n)).map
        (fun i => (carry ++ b).getD (i * n) 0))
        ((carry ++ b).drop ((carry ++ b).length / n * n)) hC₁]
    have hL : carry ++ (b :: rest).flatten = (carry ++ b) ++ rest.flatten := by
      rw [List.flatten_cons, List.append_assoc]
    have hL₂ : (carry ++ b).drop ((carry ++ b).length / n * n) ++ rest.flatten =
        (carry ++ (b :: rest).flatten).drop ((carry ++ b).length / n * n) := by
      rw [hL, List.drop_append_of_le_length (Nat.div_mul_le_self _ _)]
    have hq₂ : ((carry ++ b).drop ((carry ++ b).length / n * n) ++ rest.flatten).length / n =
        (carry ++ (b :: rest).flatten).length / n - (carry ++ b).length / n := by
      have hlen2 : ((carry ++ b).drop ((carry ++ b).length / n * n) ++ rest.flatten).length =
          (carry ++ (b :: rest).flatten).length - (carry ++ b).length / n * n := by
        rw [hL₂, List.length_drop]
      rw [hlen2, show (carry ++ b).length / n * n = n * ((carry ++ b).length / n) by ring]
      apply Nat.sub_mul_div
      rw [show n * ((carry ++ b).length / n) = (carry ++ b).length / n * n by ring]
      calc (carry ++ b).length / n * n ≤ (carry ++ b).length := Nat.div_mul_le_self _ _
        _ ≤ (carry ++ (b :: rest).flatten).length := by
            rw [hL]
            simp only [List.length_append]
            omega
    have hq1le : (carry ++ b).length / n ≤ (carry ++ (b :: rest).flatten).length / n := by
      have hlen : (carry ++ b).length ≤ (carry ++ (b :: rest).flatten).length := by
        rw [hL]
        simp only [List.length_append]
        omega
      exact Nat.div_le_div_right hlen
    have hsplit : (carry ++ (b :: rest).flatten).length / n =
        (carry ++ b).length / n +
          ((carry ++ b).drop ((carry ++ b).length / n * n) ++ rest.flatten).length / n := by
      omega
    rw [Prod.mk.injEq]
    constructor
    · rw [List.append_assoc, hsplit, List.range_add, List.map_append, List.map_map]
      congr 1
      congr 1
      · -- the first call's outputs are the first q₁ decimated samples
        apply List.map_congr_left
        intro i hi
        have hi' : i < (carry ++ b).length / n := List.mem_range.mp hi
        have hin : i * n < (carry ++ b).length := by
          have h1 : (i + 1) * n ≤ (carry ++ b).length / n * n :=
            Nat.mul_le_mul_right n (by omega)
          have h2 := Nat.div_mul_le_self (carry ++ b).length n
          have h3 : (i + 1) * n = i * n + n := Nat.succ_mul i n
          omega
        rw [hL, List.getD_append _ _ _ _ hin]
      · -- the recursive outputs are the remaining decimated samples
        apply List.map_congr_left
        intro j _
        simp only [Function.comp_apply]
        rw [hL₂, List.getD_eq_getElem?_getD, List.getElem?_drop,
          ← List.getD_eq_getElem?_getD]
        have harg : (carry ++ b).length / n * n + j * n =
            ((carry ++ b).length / n + j) * n := (Nat.add_mul _ j n).symm
        rw [harg]
    · rw [hsplit, Nat.add_mul, ← List.drop_drop, ← hL₂]

/-- resampleAudio at integer ratio `n ≥ 2` on nonempty input: it emits
`max 1 (round(length / n))` decimated taps. -/
theorem resampleAudio_nat (input : List ℚ) (n : ℕ) (hn : 2 ≤ n) (inR outR : ℚ)
    (hout : 0 < outR) (hrate : inR = (n : ℚ) * outR) (hne : input ≠ []) :
    resampleAudio input inR outR =
      (List.range (max 1 (jsRound ((input.length : ℚ) / (n : ℚ)))).toNat).map
        (fun i => input.getD (i * n) 0) := by
  have hlen0 : input.length ≠ 0 := fun h => hne (List.length_eq_zero.mp h)
  have hgt1 : (1 : ℚ) < (n : ℚ) := by exact_mod_cast hn
  have hneq : inR ≠ outR := by
    rw [hrate]
    intro hcontra
    have h1 : 1 * outR < (n : ℚ) * outR := mul_lt_mul_of_pos_right hgt1 hout
    rw [one_mul, hcontra] at h1
    exact lt_irrefl _ h1
  have hratio : inR / outR = (n : ℚ) := by
    rw [hrate]
    field_simp
  simp only [resampleAudio]
  rw [if_neg (by push_neg; exact ⟨hlen0, hneq⟩), hratio]
  rw [show (0 : ℚ) = ((0 : ℕ) : ℚ) by norm_num, resampleLoop_nat]
  simp

/-- Math.round of `len / n` lies between the truncated quotient and one
above it. -/
theorem jsRound_div_bounds (len n : ℕ) (hn : 1 ≤ n) :
    len / n ≤ (max 1 (jsRound ((len : ℚ) / (n : ℚ)))).toNat ∧
    (max 1 (jsRound ((len : ℚ) / (n : ℚ)))).toNat ≤ len / n + 1 := by
  unfold jsRound
  have hnpos : (0 : ℚ) < (n : ℚ) := by exact_mod_cast hn
  have hlow : ((len / n : ℕ) : ℚ) ≤ (len : ℚ) / (n : ℚ) := by
    rw [le_div_iff hnpos]
    exact_mod_cast Nat.div_mul_le_self len n
  have hnatlt : len < (len / n + 1) * n := by
    have hdm := Nat.div_add_mod' len n
    have hml : len % n < n := Nat.mod_lt _ (by omega)
    have hmul : (len / n + 1) * n = len / n * n + n := Nat.succ_mul _ _
    omega
  have hhigh : (len : ℚ) / (n : ℚ) < ((len / n : ℕ) : ℚ) + 1 := by
    rw [div_lt_iff hnpos]
    exact_mod_cast hnatlt
  have hfl : ((len / n : ℕ) : ℤ) ≤ ⌊(len : ℚ) / (n : ℚ) + 1 / 2⌋ := by
    apply Int.le_floor.mpr
    rw [Int.cast_natCast]
    linarith
  have hfh : ⌊(len : ℚ) / (n : ℚ) + 1 / 2⌋ < ((len / n : ℕ) : ℤ) + 2 := by
    apply Int.floor_lt.mpr
    have hc : ((((len / n : ℕ) : ℤ) + 2 : ℤ) : ℚ) = ((len / n : ℕ) : ℚ) + 2 := by
      rw [Int.cast_add, Int.cast_natCast]
      norm_num
    rw [hc]
    linarith
  have he0 : (0 : ℤ) ≤ ((len / n : ℕ) : ℤ) := Int.natCast_nonneg _
  have hmax0 : (0 : ℤ) ≤ max 1 ⌊(len : ℚ) / (n : ℚ) + 1 / 2⌋ :=
    le_trans zero_le_one (le_max_left _ _)
  constructor
  · rw [Int.le_toNat hmax0]
    omega
  · rw [Int.toNat_le]
    omega

/-- C8 counterexample: at ratio 3/2 (24 kHz source, 16 kHz target) on
the two callback blocks [0, 1] and [2, 3], the streaming resampler emits
[0, 1, 5/2] while batch-resampling the concatenation emits [0, 3/2, 3]:
same output length, different samples.  The streaming resampler restarts
its phase at 0 each call and consumes `floor(outputs * ratio)` whole
samples, discarding the fractional phase at the block boundary, so the
claimed equivalence with batch resampling fails. -/
theorem resampler_stream_batch_counterexample :
    (streamResampleAll (3 / 2) [[0, 1], [2, 3]]).1.length =
      (resampleAudio [0, 1, 2, 3] 24000 16000).length ∧
    (streamResampleAll (3 / 2) [[0, 1], [2, 3]]).1 ≠
      resampleAudio [0, 1, 2, 3] 24000 16000 := by
  have hs : (streamResampleAll (3 / 2) [[0, 1], [2, 3]]).1 = [0, 1, 5 / 2] := by
    norm_num [streamResampleAll, streamResample, resampleLoop, interpAt]
    simp only [show Int.toNat 2 = 2 from rfl, show Int.toNat 3 = 3 from rfl]
    norm_num
  have hb : resampleAudio [0, 1, 2, 3] 24000 16000 = [0, 3 / 2, 3] := by
    norm_num [resampleAudio, jsRound, resampleLoop, interpAt]
    simp only [show Int.toNat 2 = 2 from rfl, show Int.toNat 3 = 3 from rfl]
    norm_num
  rw [hs, hb]
  refine ⟨rfl, ?_⟩
  norm_num [List.cons.injEq]

/-- C8 (amended): the capture processor's streaming resampler carries
residual whole samples (not fractional phase) across callbacks; when the
resample ratio is a whole number n ≥ 2 of output periods per input
period — as in the deployed 48 kHz → 16 kHz path, ratio 3 — the
concatenation of per-block outputs over any partition of the input into
callback blocks is exactly a prefix of the batch resample of the whole
input, and the batch output is at most one sample longer (the length
difference is Math.round versus floor).  For non-integer ratios the
streaming output can differ sample-wise from the batch output (see the
counterexample). -/
theorem resampler_stream_batch_equiv (n : ℕ) (hn : 2 ≤ n) (blocks : List (List ℚ))
    (inR outR : ℚ) (hout : 0 < outR) (hrate : inR = (n : ℚ) * outR) :
    (resampleAudio blocks.flatten inR outR).take
        ((streamResampleAll (n : ℚ) blocks).1.length) =
      (streamResampleAll (n : ℚ) blocks).1 ∧
    (streamResampleAll (n : ℚ) blocks).1.length ≤
      (resampleAudio blocks.flatten inR outR).length ∧
    (resampleAudio blocks.flatten inR outR).length ≤
      (streamResampleAll (n : ℚ) blocks).1.length + 1 := by
  have h1n : 1 ≤ n := by omega
  have hstream : (streamResampleAll (n : ℚ) blocks).1 =
      (List.range (blocks.flatten.length / n)).map
        (fun i => blocks.flatten.getD (i * n) 0) := by
    have h := streamFold_inv n h1n blocks [] [] (by simpa using h1n)
    unfold streamResampleAll
    rw [h]
    simp
  by_cases hflat : blocks.flatten = []
  · rw [hstream, hflat]
    simp [resampleAudio]
  · have hbatch := resampleAudio_nat blocks.flatten n hn inR outR hout hrate hflat
    obtain ⟨hb1, hb2⟩ := jsRound_div_bounds blocks.flatten.length n h1n
    rw [hstream, hbatch]
    refine ⟨?_, ?_, ?_⟩
    · rw [List.length_map, List.length_range, ← List.map_take, List.take_range,
        Nat.min_eq_left hb1]
    · simp only [List.length_map, List.length_range]
      omega
    · simp only [List.length_map, List.length_range]
      omega

/-- C8 witness: ratio 3 (48 kHz → 16 kHz) on two concrete blocks. -/
theorem resampler_stream_batch_equiv_witness :
    (0 : ℚ) < 16000 ∧
    (resampleAudio ([[(1 : ℚ), 2, 3], [4, 5, 6]] : List (List ℚ)).flatten 48000 16000).take
        ((streamResampleAll ((3 : ℕ) : ℚ) [[(1 : ℚ), 2, 3], [4, 5, 6]]).1.length) =
      (streamResampleAll ((3 : ℕ) : ℚ) [[(1 : ℚ), 2, 3], [4, 5, 6]]).1 :=
  ⟨by norm_num,
    (resampler_stream_batch_equiv 3 (by norm_num) [[(1 : ℚ), 2, 3], [4, 5, 6]]
      48000 16000 (by norm_num) (by norm_num)).1⟩

/-! ### C3 and C4: the worker loop under stop and under model failure -/

/-- The mean square of a constant-1 window is 1 (so such a window is
voiced: 1 is not below the squared noise gate). -/
theorem meanSquare_replicate_one (m : ℕ) (hm : 0 < m) :
    meanSquare (List.replicate m (1 : ℚ)) = 1 := by
  unfold meanSquare
  rw [if_neg (by simp; omega), List.map_replicate]
  norm_num
  have hm0 : ((m : ℚ)) ≠ 0 := by
    exact_mod_cast Nat.pos_iff_ne_zero.mp hm
  exact div_self hm0

/-- Any single atomic section taken from a stopped worker keeps it
stopped, never increases the emission potential (posted predictions plus
the possible in-flight one), and — when additionally nothing is in
flight — posts nothing and starts nothing. -/
theorem stepWorker_stopped (s : WState) (e : WEvent) (hrun : s.isRunning = false)
    (hne : e ≠ WEvent.msgStart) :
    (stepWorker s e).isRunning = false ∧
    (stepWorker s e).emitted.length +
        (if (stepWorker s e).inFlight = true then 1 else 0) ≤
      s.emitted.length + (if s.inFlight = true then 1 else 0) ∧
    (s.inFlight = false →
      (stepWorker s e).emitted = s.emitted ∧ (stepWorker s e).inFlight = false) := by
  cases e with
  | msgStart => exact absurd rfl hne
  | msgStop => exact ⟨rfl, le_refl _, fun h => ⟨rfl, h⟩⟩
  | msgReset => exact ⟨hrun, le_refl _, fun h => ⟨rfl, h⟩⟩
  | recvSamples xs =>
    have hstep : stepWorker s (WEvent.recvSamples xs) = s := by
      simp only [stepWorker]
      rw [if_neg (by simp [hrun])]
    rw [hstep]
    exact ⟨hrun, le_refl _, fun h => ⟨rfl, h⟩⟩
  | hopSilence now =>
    have hstep : stepWorker s (WEvent.hopSilence now) = s := by
      simp only [stepWorker]
      rw [if_neg (by simp [hrun])]
    rw [hstep]
    exact ⟨hrun, le_refl _, fun h => ⟨rfl, h⟩⟩
  | hopVoiced now =>
    have hstep : stepWorker s (WEvent.hopVoiced now) = s := by
      simp only [stepWorker]
      rw [if_neg (by simp [hrun])]
    rw [hstep]
    exact ⟨hrun, le_refl _, fun h => ⟨rfl, h⟩⟩
  | inferDone raw =>
    by_cases hf : s.inFlight = true
    · cases raw with
      | none =>
        have hstep : stepWorker s (WEvent.inferDone none) =
            { s with inFlight := false } := by
          simp only [stepWorker]
          rw [if_pos hf]
        rw [hstep]
        refine ⟨hrun, ?_, fun h => absurd hf (by simp [h])⟩
        simp [hf]
      | some r =>
        refine ⟨?_, ?_, fun h => absurd hf (by simp [h])⟩
        · simp [stepWorker, hf, hrun]
        · simp only [stepWorker, hf]
          simp [List.length_append]
    · have hstep : stepWorker s (WEvent.inferDone raw) = s := by
        simp only [stepWorker]
        rw [if_neg hf]
      rw [hstep]
      exact ⟨hrun, le_refl _, fun h => ⟨rfl, by simpa using hf⟩⟩

/-- Folding any start-free event sequence from a stopped worker: the
worker stays stopped, at most the one in-flight result is added to the
emitted predictions, and with nothing in flight nothing is emitted at
all. -/
theorem runEvents_stopped (evts : List WEvent) :
    ∀ s : WState, s.isRunning = false → WEvent.msgStart ∉ evts →
      (runEvents s evts).isRunning = false ∧
      (runEvents s evts).emitted.length +
          (if (runEvents s evts).inFlight = true then 1 else 0) ≤
        s.emitted.length + (if s.inFlight = true then 1 else 0) ∧
      (s.inFlight = false → (runEvents s evts).emitted = s.emitted ∧
        (runEvents s evts).inFlight = false) := by
  induction evts with
  | nil =>
    intro s hrun _
    exact ⟨hrun, le_refl _, fun h => ⟨rfl, h⟩⟩
  | cons e rest ih =>
    intro s hrun hstart
    have hne : e ≠ WEvent.msgStart := by
      intro hcontra
      exact hstart (by rw [hcontra]; exact List.mem_cons_self _ _)
    have hrest : WEvent.msgStart ∉ rest := fun hmem => hstart (List.mem_cons_of_mem _ hmem)
    obtain ⟨h1, h2, h3⟩ := stepWorker_stopped s e hrun hne
    have hfold : runEvents s (e :: rest) = runEvents (stepWorker s e) rest := rfl
    obtain ⟨ih1, ih2, ih3⟩ := ih (stepWorker s e) h1 hrest
    rw [hfold]
    refine ⟨ih1, le_trans ih2 h2, ?_⟩
    intro hf
    obtain ⟨he, hif⟩ := h3 hf
    obtain ⟨he2, hif2⟩ := ih3 hif
    exact ⟨he2.trans he, hif2⟩

/-- Unfolding one event of the run. -/
theorem runEvents_cons (s : WState) (e : WEvent) (evts : List WEvent) :
    runEvents s (e :: evts) = runEvents (stepWorker s e) evts := rfl

/-- The empty run changes nothing. -/
theorem runEvents_nil (s : WState) : runEvents s [] = s := rfl

/-- C3 counterexample: run the worker through start, a full voiced
buffer, the beginning of a hop (inference goes in flight), then process
stop while the call is pending, then let the call complete successfully.
The completed call's prediction is still posted after stop was processed:
emittedAfterStop ends up non-empty, refuting the claim that the result
of an in-flight inference is not delivered after stop. -/
theorem stop_discards_counterexample :
    (runEvents initWState
      [WEvent.msgStart, WEvent.recvSamples (List.replicate 2376 1),
        WEvent.hopVoiced 5, WEvent.msgStop,
        WEvent.inferDone (some (fun _ => 1 / 8))]).emittedAfterStop.length = 1 := by
  have hms : meanSquare (List.replicate 2376 (1 : ℚ)) = 1 :=
    meanSquare_replicate_one 2376 (by norm_num)
  have hwin : windowOf (List.replicate 2376 (1 : ℚ)) = List.replicate 2376 (1 : ℚ) := by
    simp only [windowOf, List.length_replicate, INFERENCE_WINDOW_SAMPLES, Nat.sub_self,
      List.drop_zero]
  have h1 : stepWorker initWState WEvent.msgStart =
      ⟨true, none, 0, false, [], [], []⟩ := rfl
  have h2 : ∀ buf : List ℚ, buf.length = 2376 →
      stepWorker (⟨true, none, 0, false, [], [], []⟩ : WState)
        (WEvent.recvSamples buf) = ⟨true, none, 0, false, buf, [], []⟩ := by
    intro buf hlen
    simp only [stepWorker]
    rw [if_pos ⟨trivial, trivial⟩, List.nil_append,
      if_neg (by rw [hlen]; norm_num [INFERENCE_WINDOW_SAMPLES])]
  have h3 : ∀ buf : List ℚ, buf.length = 2376 → meanSquare (windowOf buf) = 1 →
      stepWorker (⟨true, none, 0, false, buf, [], []⟩ : WState)
        (WEvent.hopVoiced 5) = ⟨true, none, 5, true, buf, [], []⟩ := by
    intro buf hlen hmsb
    simp only [stepWorker]
    rw [if_pos ⟨trivial, trivial, by rw [hlen]; norm_num [INFERENCE_WINDOW_SAMPLES],
      by rw [hmsb]; norm_num⟩]
  have h4 : ∀ buf : List ℚ,
      stepWorker (⟨true, none, 5, true, buf, [], []⟩ : WState) WEvent.msgStop =
        ⟨false, none, 0, true, buf, [], []⟩ := fun _ => rfl
  have h5 : ∀ (buf : List ℚ) (v : EmoVec),
      stepWorker (⟨false, none, 0, true, buf, [], []⟩ : WState)
        (WEvent.inferDone (some v)) =
      ⟨false, some v, 0, false, buf.drop (min HOP_SIZE_SAMPLES buf.length),
        [⟨v, v, false⟩], [⟨v, v, false⟩]⟩ := by
    intro buf v
    simp only [stepWorker]
    rw [if_pos trivial, if_neg (show ¬ (false = true) by simp)]
    simp only [emaUpdate, List.nil_append]
  rw [runEvents_cons, h1, runEvents_cons,
    h2 (List.replicate 2376 1) (List.length_replicate 2376 1), runEvents_cons,
    h3 (List.replicate 2376 1) (List.length_replicate 2376 1) (by rw [hwin, hms]),
    runEvents_cons, h4, runEvents_cons, h5, runEvents_nil]
  rfl

/-- C3 (amended): once the stop handler has run, and as long as no
start message arrives, the worker stays stopped, at most the single
already-in-flight inference result is posted afterwards (the in-flight
result IS still posted when it completes successfully — see the
counterexample), and nothing at all is posted when no call was in
flight.  The smoothing state is cleared both by stop and by a
subsequent start, so the first post-restart prediction is computed from
an empty smoother. -/
theorem stop_discards_in_flight (s : WState) (evts : List WEvent)
    (hrun : s.isRunning = false) (hstart : WEvent.msgStart ∉ evts) :
    (runEvents s evts).isRunning = false ∧
    (runEvents s evts).emitted.length ≤
      s.emitted.length + (if s.inFlight = true then 1 else 0) ∧
    (s.inFlight = false → (runEvents s evts).emitted = s.emitted) ∧
    (stepWorker s WEvent.msgStop).smootherState = none ∧
    (stepWorker s WEvent.msgStart).smootherState = none := by
  obtain ⟨h1, h2, h3⟩ := runEvents_stopped evts s hrun hstart
  refine ⟨h1, ?_, fun hf => (h3 hf).1, rfl, rfl⟩
  split_ifs at h2 ⊢ <;> omega

/-- C3 witness: a stopped worker with nothing in flight processing a
stop and a failure completion posts nothing. -/
theorem stop_discards_in_flight_witness :
    ((⟨false, none, 0, false, [], [], []⟩ : WState).isRunning = false) ∧
    (runEvents (⟨false, none, 0, false, [], [], []⟩ : WState)
      [WEvent.msgStop, WEvent.inferDone none]).emitted = [] :=
  ⟨rfl,
    (stop_discards_in_flight ⟨false, none, 0, false, [], [], []⟩
      [WEvent.msgStop, WEvent.inferDone none] rfl (by simp)).2.2.1 rfl⟩

/-- C4 counterexample: run the worker through start, a full voiced
buffer and the start of a hop, then let the model invocation fail
(runInference returns null).  The hop produces no prediction — but the
rolling buffer is NOT advanced: it still holds all 2376 samples, not
2376 - HOP_SIZE_SAMPLES = 1, so the claim that the buffer still
advances by the hop size on failure is false. -/
theorem hop_advance_on_failure_counterexample :
    (runEvents initWState
      [WEvent.msgStart, WEvent.recvSamples (List.replicate 2376 1),
        WEvent.hopVoiced 5, WEvent.inferDone none]).emitted = [] ∧
    (runEvents initWState
      [WEvent.msgStart, WEvent.recvSamples (List.replicate 2376 1),
        WEvent.hopVoiced 5, WEvent.inferDone none]).sampleBuffer.length = 2376 ∧
    HOP_SIZE_SAMPLES = 2375 ∧ ¬ (2376 : ℕ) = 2376 - HOP_SIZE_SAMPLES := by
  have hms : meanSquare (List.replicate 2376 (1 : ℚ)) = 1 :=
    meanSquare_replicate_one 2376 (by norm_num)
  have hwin : windowOf (List.replicate 2376 (1 : ℚ)) = List.replicate 2376 (1 : ℚ) := by
    simp only [windowOf, List.length_replicate, INFERENCE_WINDOW_SAMPLES, Nat.sub_self,
      List.drop_zero]
  have h1 : stepWorker initWState WEvent.msgStart =
      ⟨true, none, 0, false, [], [], []⟩ := rfl
  have h2 : ∀ buf : List ℚ, buf.length = 2376 →
      stepWorker (⟨true, none, 0, false, [], [], []⟩ : WState)
        (WEvent.recvSamples buf) = ⟨true, none, 0, false, buf, [], []⟩ := by
    intro buf hlen
    simp only [stepWorker]
    rw [if_pos ⟨trivial, trivial⟩, List.nil_append,
      if_neg (by rw [hlen]; norm_num [INFERENCE_WINDOW_SAMPLES])]
  have h3 : ∀ buf : List ℚ, buf.length = 2376 → meanSquare (windowOf buf) = 1 →
      stepWorker (⟨true, none, 0, false, buf, [], []⟩ : WState)
        (WEvent.hopVoiced 5) = ⟨true, none, 5, true, buf, [], []⟩ := by
    intro buf hlen hmsb
    simp only [stepWorker]
    rw [if_pos ⟨trivial, trivial, by rw [hlen]; norm_num [INFERENCE_WINDOW_SAMPLES],
      by rw [hmsb]; norm_num⟩]
  have h6 : ∀ buf : List ℚ,
      stepWorker (⟨true, none, 5, true, buf, [], []⟩ : WState)
        (WEvent.inferDone none) = ⟨true, none, 5, false, buf, [], []⟩ :=
    fun _ => rfl
  rw [runEvents_cons, h1, runEvents_cons,
    h2 (List.replicate 2376 1) (List.length_replicate 2376 1), runEvents_cons,
    h3 (List.replicate 2376 1) (List.length_replicate 2376 1) (by rw [hwin, hms]),
    runEvents_cons, h6, runEvents_nil]
  exact ⟨rfl, List.length_replicate 2376 1, rfl, by decide⟩

/-- C4 (amended): when the pending model invocation fails, the hop
produces no prediction — nothing is posted — and the rolling sample
buffer is left exactly as it was (the same window will be retried); the
buffer advances by `min HOP_SIZE_SAMPLES length` only when the
invocation succeeds (and on silence hops). -/
theorem hop_advance_on_failure (s : WState) (h : s.inFlight = true) :
    (stepWorker s (WEvent.inferDone none)).emitted = s.emitted ∧
    (stepWorker s (WEvent.inferDone none)).emittedAfterStop = s.emittedAfterStop ∧
    (stepWorker s (WEvent.inferDone none)).sampleBuffer = s.sampleBuffer ∧
    (stepWorker s (WEvent.inferDone none)).inFlight = false ∧
    (∀ r : EmoVec, (stepWorker s (WEvent.inferDone (some r))).sampleBuffer =
      s.sampleBuffer.drop (min HOP_SIZE_SAMPLES s.sampleBuffer.length)) := by
  have hstep : stepWorker s (WEvent.inferDone none) = { s with inFlight := false } := by
    simp only [stepWorker]
    rw [if_pos h]
  rw [hstep]
  refine ⟨rfl, rfl, rfl, rfl, ?_⟩
  intro r
  simp only [stepWorker]
  rw [if_pos h]

/-- C4 witness: a concrete in-flight state whose failure completion
leaves the buffer untouched and posts nothing. -/
theorem hop_advance_on_failure_witness :
    ((⟨true, none, 5, true, [1, 2], [], []⟩ : WState).inFlight = true) ∧
    (stepWorker (⟨true, none, 5, true, [1, 2], [], []⟩ : WState)
        (WEvent.inferDone none)).sampleBuffer = [1, 2] ∧
    (stepWorker (⟨true, none, 5, true, [1, 2], [], []⟩ : WState)
        (WEvent.inferDone none)).emitted = [] :=
  ⟨rfl,
    (hop_advance_on_failure ⟨true, none, 5, true, [1, 2], [], []⟩ rfl).2.2.1,
    (hop_advance_on_failure ⟨true, none, 5, true, [1, 2], [], []⟩ rfl).1⟩

end AudioEmotion
